import Mathlib

/-! The youtubearchive query builder and the number parser of its scraper.

A shallow embedding of `server/routes.go` (`buildParts`, `buildVideosQuery`, the page
count of `HandleSearch` / `HandleChannels`) and of `scrape/scrape.go` (`filterStr`,
`parseNumberFromStat`).

Conventions.
* A Go `string` is a Lean `String` (a sequence of code points).  All the markers the code
  looks at (`,`, `!`, `||`, the decimal digits) are ASCII, so splitting and prefix tests
  agree on bytes and on code points.
* A Go `interface{}` bound value is a `Value`: a string or an `int`.
* A Go `int` is a Lean `Int`; the only arithmetic on it, `page*limit`, wraps to signed
  64 bits (`wrapInt64`).
* A Go `float64` is the rational it denotes; every floating-point operation is the exact
  operation followed by the rounding `float64`.
* `util.ParseTags` is not part of the embedded sources.  `buildVideosQuery` therefore takes
  the triple `(exquery, tags, keys)` that `ParseTags` returns as its input; the map `tags`
  is its lookup function (a missing key reads as the empty string, as in Go).
* `strings.ToLower` is taken as a parameter `toLower`, so every general theorem holds for
  the library function whatever it does outside ASCII; `asciiToLower` instantiates it for
  the concrete evaluations.
-/

namespace YoutubeArchive

/-! ## Strings -/

/-- Go `strings.HasPrefix`. -/
def hasPrefix (s p : String) : Bool := p.data.isPrefixOf s.data

/-- Go `strings.TrimPrefix`. -/
def trimPrefix (s p : String) : String :=
  if hasPrefix s p then ⟨s.data.drop p.data.length⟩ else s

/-- Splitting a character sequence at every `sep`; the result is never empty. -/
def splitChars (sep : Char) : List Char → List (List Char)
  | [] => [[]]
  | c :: cs =>
    if c = sep then [] :: splitChars sep cs
    else
      match splitChars sep cs with
      | [] => [[c]]
      | p :: ps => (c :: p) :: ps

/-- Go `strings.Split(value, ",")`. -/
def splitComma (value : String) : List String :=
  (splitChars ',' value.data).map String.mk

/-- Concatenation of a list of strings, left to right. -/
def concat : List String → String
  | [] => ""
  | s :: ss => s ++ concat ss

/-- Whether `pat` occurs somewhere in a character sequence. -/
def containsChars (pat : List Char) : List Char → Bool
  | [] => pat.isPrefixOf []
  | c :: cs => pat.isPrefixOf (c :: cs) || containsChars pat cs

/-- Go `strings.Contains`. -/
def containsStr (s sub : String) : Bool := containsChars sub.data s.data

/-- Go `strings.HasSuffix`. -/
def hasSuffix (s p : String) : Bool := p.data.reverse.isPrefixOf s.data.reverse

/-- Number of positions of `s` at which `pat` occurs. -/
def occurrencesChars (pat : List Char) : List Char → Nat
  | [] => if pat.isPrefixOf [] then 1 else 0
  | c :: cs => (if pat.isPrefixOf (c :: cs) then 1 else 0) + occurrencesChars pat cs

/-- Number of occurrences of `pat` in `s`. -/
def occurrences (s pat : String) : Nat := occurrencesChars pat.data s.data

/-- Number of `?` placeholders of a query text. -/
def placeholders (s : String) : Nat := s.data.count '?'

/-- ASCII lower-casing, the behaviour of `strings.ToLower` on ASCII text. -/
def asciiToLower (s : String) : String := ⟨s.data.map Char.toLower⟩

/-! ## Bound values -/

/-- A bound query parameter (`interface{}` in the source): a string or an `int`. -/
inductive Value where
  | str (s : String)
  | int (n : Int)
  deriving DecidableEq, Repr

/-- Wrap-around of a mathematical integer to a signed 64-bit Go `int`. -/
def wrapInt64 (n : Int) : Int := (n + 2 ^ 63) % 2 ^ 64 - 2 ^ 63

/-! ## `buildParts` -/

/-- The closure `negate` of `buildParts`: when the part starts with `!` the marker is
trimmed from the part and ` NOT` is returned, otherwise the part is kept and the empty
string is returned.  The result is `(part after the call, returned text)`. -/
def negate (part : String) : String × String :=
  if hasPrefix part "!" then (trimPrefix part "!", " NOT") else (part, "")

/-- One iteration of the loop of `buildParts` on `parts[i]`, from the accumulated
`raw` and `values`. -/
def buildPartsStep (field pfx : String) (i : Nat) (part : String)
    (raw : String) (values : List Value) : String × List Value :=
  if i = 0 then
    let n := negate part
    (raw ++ (pfx ++ " (" ++ field ++ n.2 ++ " LIKE ?"), values ++ [Value.str ("%" ++ n.1 ++ "%")])
  else if hasPrefix part "||" then
    let part1 := trimPrefix part "||"
    (raw ++ (" OR " ++ field ++ " LIKE ?"), values ++ [Value.str ("%" ++ part1 ++ "%")])
  else
    let n := negate part
    (raw ++ (" AND " ++ field ++ n.2 ++ " LIKE ?"), values ++ [Value.str ("%" ++ n.1 ++ "%")])

/-- The loop `for i := 0; i < len(parts); i++` of `buildParts`, entered at index `i` with
the parts from `i` on. -/
def buildPartsLoop (field pfx : String) : Nat → List String → String → List Value →
    String × List Value
  | _, [], raw, values => (raw, values)
  | i, part :: rest, raw, values =>
    let r := buildPartsStep field pfx i part raw values
    buildPartsLoop field pfx (i + 1) rest r.1 r.2

/-- The function `buildParts(field, prefix, value)`. -/
def buildParts (field pfx value : String) : String × List Value :=
  let parts := splitComma value
  let r := buildPartsLoop field pfx 0 parts "" []
  if parts.length ≠ 0 then (r.1 ++ ")", r.2) else r

/-! ## `buildVideosQuery` -/

/-- The join clause appended for `terminated` queries. -/
def joinClause : String :=
  " INNER JOIN terminated_channels b ON a.uploader_url = b.uploader_url"

/-- The first loop over `keys`: the join clause is appended once, at the first key equal
to `terminated`, and the loop is left (`break`). -/
def joinLoop : List String → String → String
  | [], raw => raw
  | v :: rest, raw =>
    if v = "terminated" then raw ++ joinClause
    else joinLoop rest raw

/-- The closure `addParts` of `buildVideosQuery`. -/
def addParts (raw : String) (values : List Value) (r : String × List Value) :
    String × List Value :=
  (raw ++ r.1, values ++ r.2)

/-- One iteration of the second loop over `keys`, on `keys[i] = key`. -/
def keyStep (toLower : String → String) (tags : String → String) (exset : Bool)
    (i : Nat) (key : String) (raw : String) (values : List Value) : String × List Value :=
  let pfx : String :=
    if i = 0 then
      if !exset then " WHERE" else " AND"
    else " AND"
  let v := toLower key
  if v = "uploader" then addParts raw values (buildParts "uploader" pfx (tags key))
  else if v = "description" then addParts raw values (buildParts "description" pfx (tags key))
  else if v = "title" then addParts raw values (buildParts "title" pfx (tags key))
  else if v = "terminated" then addParts raw values (buildParts "terminated" pfx (tags key))
  else if v = "uploader_url" then addParts raw values (buildParts "uploader_url" pfx (tags key))
  else (raw, values)

/-- The second loop `for i, key := range keys`, entered at index `i`. -/
def keyLoop (toLower : String → String) (tags : String → String) (exset : Bool) :
    Nat → List String → String → List Value → String × List Value
  | _, [], raw, values => (raw, values)
  | i, key :: rest, raw, values =>
    let r := keyStep toLower tags exset i key raw values
    keyLoop toLower tags exset (i + 1) rest r.1 r.2

/-- The function `buildVideosQuery`, from the triple `(exquery, tags, keys)` returned by
`util.ParseTags(query)` on. -/
def buildVideosQuery (toLower : String → String) (exquery : String)
    (tags : String → String) (keys : List String) (limit page : Int) :
    String × List Value :=
  let raw0 : String := "SELECT a.* FROM videos a"
  let raw1 := joinLoop keys raw0
  let values0 : List Value := []
  let s2 : String × List Value × Bool :=
    if exquery ≠ "" then
      (raw1 ++ " WHERE title LIKE ?", values0 ++ [Value.str ("%" ++ exquery ++ "%")], true)
    else (raw1, values0, false)
  let s3 := keyLoop toLower tags s2.2.2 0 keys s2.1 s2.2.1
  let raw4 := s3.1 ++ " ORDER BY upload_date DESC"
  if 0 ≤ limit then
    if 0 ≤ page then
      (raw4 ++ " LIMIT ?" ++ " OFFSET ?",
        s3.2 ++ [Value.int limit] ++ [Value.int (wrapInt64 (page * limit))])
    else (raw4 ++ " LIMIT ?", s3.2 ++ [Value.int limit])
  else (raw4, s3.2)

/-! ## Page count of the handlers -/

/-- Rounding of a rational to the nearest integer, a tie going to the even one. -/
def roundHalfEven (q : ℚ) : Int :=
  if q - ⌊q⌋ < 1 / 2 then ⌊q⌋
  else if 1 / 2 < q - ⌊q⌋ then ⌊q⌋ + 1
  else if ⌊q⌋ % 2 = 0 then ⌊q⌋ else ⌊q⌋ + 1

/-- Rounding of an exact value to `float64` (IEEE 754 binary64, round to nearest, ties
to even): the value is rounded to 53 significant bits.  The exponent is not bounded, so
there is no overflow and no subnormal number; for the magnitudes met here (a quotient of
two 64-bit integers, between `2^-63` and `2^64`) that is the `float64` rounding. -/
def float64 (q : ℚ) : ℚ :=
  if q = 0 then 0
  else (roundHalfEven (q / 2 ^ (Int.log 2 |q| - 52)) : ℚ) * 2 ^ (Int.log 2 |q| - 52)

/-- Go conversion `int(x)` of a floating-point number: truncation toward zero (for a value
that fits the type `int`). -/
def truncToInt (q : ℚ) : Int := if 0 ≤ q then ⌊q⌋ else ⌈q⌉

/-- The page count `int(float64(total)/float64(limit) + 0.9)` of `HandleSearch` and
`HandleChannels`: the two conversions, the division, the constant `0.9` and the addition
each round to `float64`. -/
def pageCount (total limit : Int) : Int :=
  truncToInt
    (float64 (float64 (float64 (total : ℚ) / float64 (limit : ℚ)) + float64 (9 / 10)))

/-- Specification: the page count `floor(total/limit + 0.9)` taken over exact rationals,
with `0.9 = 9/10`. -/
def pageCountExact (total limit : Int) : Int := ⌊(total : ℚ) / (limit : ℚ) + 9 / 10⌋

/-- True ceiling division `(total + limit - 1) / limit`. -/
def ceilDiv (total limit : Int) : Int := (total + limit - 1) / limit

/-! ## `scrape.go`: `filterStr` and `parseNumberFromStat` -/

/-- The function `filterStr`: the runes of `str` that satisfy `f`, in order. -/
def filterStr (str : String) (f : Char → Bool) : String :=
  str.data.foldl (fun retval v => if f v then retval ++ String.singleton v else retval) ""

/-- Errors of `strconv.ParseInt`. -/
inductive NumError where
  | errSyntax
  | errRange
  deriving DecidableEq, Repr

/-- The digit loop of `strconv.ParseUint(s, 10, 64)`: the accumulated value `n`, then
either the value or the error together with the value returned with it. -/
def parseUintLoop : List Char → Nat → Nat × Option NumError
  | [], n => (n, none)
  | c :: cs, n =>
    if '0' ≤ c ∧ c ≤ '9' then
      let d := c.toNat - '0'.toNat
      if n ≥ (2 ^ 64 - 1) / 10 + 1 then (2 ^ 64 - 1, some NumError.errRange)
      else
        let n1 := n * 10 + d
        if n1 > 2 ^ 64 - 1 then (2 ^ 64 - 1, some NumError.errRange)
        else parseUintLoop cs n1
    else (0, some NumError.errSyntax)

/-- Go `strconv.ParseUint(s, 10, 64)`. -/
def parseUint (s : List Char) : Nat × Option NumError :=
  if s = [] then (0, some NumError.errSyntax) else parseUintLoop s 0

/-- Go `strconv.ParseInt(s, 10, 64)`. -/
def parseInt (s : String) : Int × Option NumError :=
  match s.data with
  | [] => (0, some NumError.errSyntax)
  | c :: cs =>
    let neg : Bool := c = '-'
    let body := if c = '+' ∨ c = '-' then cs else c :: cs
    let r := parseUint body
    if r.2 = some NumError.errSyntax then (0, some NumError.errSyntax)
    else if !neg ∧ r.1 ≥ 2 ^ 63 then (2 ^ 63 - 1, some NumError.errRange)
    else if neg ∧ r.1 > 2 ^ 63 then (-(2 ^ 63), some NumError.errRange)
    else (if neg then -(r.1 : Int) else (r.1 : Int), none)

/-- The function `parseNumberFromStat`: the returned number and error (`none` is `nil`). -/
def parseNumberFromStat (stat : String) : Int × Option NumError :=
  let numbers := filterStr stat (fun s => !(s ≤ '0' || s ≥ '9'))
  parseInt numbers

/-! ## The group grammar in the words of the specification -/

/-- Specification: the anchor term of a group, compiled from segment `s0`. -/
def anchorTerm (field s0 : String) : String :=
  if hasPrefix s0 "!" then field ++ " NOT LIKE ?" else field ++ " LIKE ?"

/-- Specification: a term compiled from a later segment. -/
def laterTerm (field seg : String) : String :=
  if hasPrefix seg "||" then " OR " ++ field ++ " LIKE ?"
  else if hasPrefix seg "!" then " AND " ++ field ++ " NOT LIKE ?"
  else " AND " ++ field ++ " LIKE ?"

/-- Specification: the bound value of the anchor segment, its leading `!` removed. -/
def anchorValue (s0 : String) : Value :=
  Value.str ("%" ++ trimPrefix s0 "!" ++ "%")

/-- Specification: the bound value of a later segment, its leading `||` or else its
leading `!` removed. -/
def laterValue (seg : String) : Value :=
  Value.str ("%" ++ (if hasPrefix seg "||" then trimPrefix seg "||" else trimPrefix seg "!")
    ++ "%")

/-- Specification: the bound values of one group, one per comma-separated segment. -/
def segmentValues (value : String) : List Value :=
  match splitComma value with
  | [] => []
  | s0 :: rest => anchorValue s0 :: rest.map laterValue

/-- The closed set of field keys, tested on the lower-cased key. -/
def recognized (v : String) : Bool :=
  v = "uploader" || v = "description" || v = "title" || v = "terminated" ||
    v = "uploader_url"

/-- The group of one key under the leading conjunction `pfx`: the result of `buildParts`
for a recognized key, nothing for any other key. -/
def keyGroup (toLower : String → String) (tags : String → String) (pfx key : String) :
    String × List Value :=
  if recognized (toLower key) then buildParts (toLower key) pfx (tags key) else ("", [])

/-- The trailing text for `limit` and `page`. -/
def limitText (limit page : Int) : String :=
  if 0 ≤ limit then (if 0 ≤ page then " LIMIT ? OFFSET ?" else " LIMIT ?") else ""

/-- The trailing bound values for `limit` and `page`. -/
def limitValues (limit page : Int) : List Value :=
  if 0 ≤ limit then
    (if 0 ≤ page then [Value.int limit, Value.int (wrapInt64 (page * limit))]
     else [Value.int limit])
  else []

/-- The join text of a key list: the join clause when some key is exactly `terminated`. -/
def joinText (keys : List String) : String :=
  if "terminated" ∈ keys then joinClause else ""

/-- The groups of a key list when each is introduced by ` AND`. -/
def andGroups (toLower : String → String) (tags : String → String) (keys : List String) :
    String :=
  concat (keys.map (fun k => (keyGroup toLower tags " AND" k).1))

/-- The groups of a key list as the key loop introduces them: the key at index 0 by
` WHERE` when no free-text predicate was emitted (`exset = false`) and by ` AND`
otherwise, every later key by ` AND`. -/
def loopGroups (toLower : String → String) (tags : String → String) (exset : Bool) :
    List String → String
  | [] => ""
  | k :: rest =>
    (keyGroup toLower tags (if exset then " AND" else " WHERE") k).1 ++
      andGroups toLower tags rest

/-- Specification: the bound values of the groups of a key list, in key order. -/
def groupValues (toLower : String → String) (tags : String → String) (keys : List String) :
    List Value :=
  keys.flatMap (fun k => if recognized (toLower k) then segmentValues (tags k) else [])

/-- The free-text predicate: present exactly for a non-empty free text. -/
def freeTextPredicate (exquery : String) : String :=
  if exquery ≠ "" then " WHERE title LIKE ?" else ""

/-- The bound value of the free-text predicate. -/
def freeTextValues (exquery : String) : List Value :=
  if exquery ≠ "" then [Value.str ("%" ++ exquery ++ "%")] else []

/-- The part of the query text that follows the base relation and the join text. -/
def afterJoin (toLower : String → String) (exquery : String) (tags : String → String)
    (keys : List String) (limit page : Int) : String :=
  freeTextPredicate exquery ++ loopGroups toLower tags (decide (exquery ≠ "")) keys ++
    " ORDER BY upload_date DESC" ++ limitText limit page

/-- Every character that the terms of a group are written with, the field names included. -/
def groupAlphabet : String :=
  " (NOT LIKE ? OR AND) uploader description title terminated uploader_url"

/-! ## Lemmas on strings -/

theorem concat_data (l : List String) :
    (concat l).data = (l.map String.data).flatten := by
  induction l with
  | nil => rfl
  | cons s ss ih => simp [concat, String.data_append, ih]

theorem splitChars_ne_nil (sep : Char) (s : List Char) : splitChars sep s ≠ [] := by
  cases s with
  | nil => simp [splitChars]
  | cons c cs =>
    by_cases h : c = sep
    · simp [splitChars, h]
    · cases hsp : splitChars sep cs <;> simp [splitChars, h, hsp]

theorem intercalate_splitChars (sep : Char) (s : List Char) :
    [sep].intercalate (splitChars sep s) = s := by
  induction s with
  | nil => simp [splitChars, List.intercalate]
  | cons c cs ih =>
    cases hsp : splitChars sep cs with
    | nil => exact absurd hsp (splitChars_ne_nil sep cs)
    | cons p ps =>
      rw [hsp] at ih
      by_cases h : c = sep
      · subst h
        simp only [splitChars, if_true, hsp]
        simp only [List.intercalate, List.intersperse_cons_cons, List.flatten_cons,
          List.nil_append, List.singleton_append] at ih ⊢
        rw [ih]
      · simp only [splitChars, if_neg h, hsp]
        cases ps with
        | nil =>
          simp only [List.intercalate, List.intersperse_single, List.flatten_cons,
            List.flatten_nil, List.append_nil] at ih ⊢
          rw [ih]
        | cons q qs =>
          simp only [List.intercalate, List.intersperse_cons_cons, List.flatten_cons,
            List.cons_append] at ih ⊢
          rw [ih]

theorem not_mem_splitChars (sep : Char) (s : List Char) :
    ∀ p ∈ splitChars sep s, sep ∉ p := by
  induction s with
  | nil => simp [splitChars]
  | cons c cs ih =>
    cases hsp : splitChars sep cs with
    | nil => exact absurd hsp (splitChars_ne_nil sep cs)
    | cons q qs =>
      rw [hsp] at ih
      by_cases h : c = sep
      · intro p hp
        simp only [splitChars, if_pos h, hsp, List.mem_cons] at hp
        rcases hp with rfl | hp
        · simp
        · exact ih p (List.mem_cons.mpr hp)
      · intro p hp
        simp only [splitChars, if_neg h, hsp, List.mem_cons] at hp
        rcases hp with rfl | hp
        · have hq := ih q (List.mem_cons_self _ _)
          simp only [List.mem_cons, not_or]
          exact ⟨fun e => h e.symm, hq⟩
        · exact ih p (List.mem_cons_of_mem _ hp)

theorem splitComma_ne_nil (value : String) : splitComma value ≠ [] := by
  simp [splitComma, splitChars_ne_nil]

/-! ## Lemmas on `buildParts` -/

theorem negate_fst (part : String) : (negate part).1 = trimPrefix part "!" := by
  unfold negate trimPrefix
  split <;> simp_all

theorem buildPartsLoop_later (field pfx : String) (parts : List String) :
    ∀ (i : Nat) (raw : String) (values : List Value), i ≠ 0 →
      buildPartsLoop field pfx i parts raw values =
        (raw ++ concat (parts.map (laterTerm field)), values ++ parts.map laterValue) := by
  induction parts with
  | nil => intro i raw values _; simp [buildPartsLoop, concat]
  | cons part rest ih =>
    intro i raw values hi
    rw [buildPartsLoop, ih (i + 1) _ _ (Nat.succ_ne_zero i)]
    simp only [buildPartsStep, if_neg hi, List.map_cons, concat, laterTerm, laterValue]
    by_cases h1 : hasPrefix part "||" = true
    · simp [h1, String.append_assoc]
    · by_cases h2 : hasPrefix part "!" = true
      · simp [h1, h2, negate, trimPrefix, String.append_assoc]
      · simp [h1, h2, negate, trimPrefix, String.append_assoc]

theorem buildParts_cons (field pfx value s0 : String) (rest : List String)
    (h : splitComma value = s0 :: rest) :
    buildParts field pfx value =
      (pfx ++ " (" ++ anchorTerm field s0 ++ concat (rest.map (laterTerm field)) ++ ")",
        anchorValue s0 :: rest.map laterValue) := by
  unfold buildParts
  simp only [h, List.length_cons, ne_eq, Nat.succ_ne_zero, not_false_eq_true, if_true,
    buildPartsLoop]
  rw [buildPartsLoop_later field pfx rest (0 + 1) _ _ (by decide)]
  simp only [buildPartsStep, if_true, anchorTerm, anchorValue, negate_fst]
  by_cases h2 : hasPrefix s0 "!" = true
  · simp [h2, negate, String.append_assoc]
  · simp [h2, negate, String.append_assoc]

theorem buildParts_snd (field pfx value : String) :
    (buildParts field pfx value).2 = segmentValues value := by
  cases h : splitComma value with
  | nil => exact absurd h (splitComma_ne_nil value)
  | cons s0 rest => rw [buildParts_cons field pfx value s0 rest h, segmentValues, h]

/-! ## Lemmas on `buildVideosQuery` -/

theorem joinLoop_eq (keys : List String) (raw : String) :
    joinLoop keys raw = raw ++ joinText keys := by
  induction keys with
  | nil => simp [joinLoop, joinText]
  | cons v rest ih =>
    by_cases h : v = "terminated"
    · simp [joinLoop, joinText, h]
    · have h2 : ¬ "terminated" = v := fun e => h e.symm
      simp only [joinLoop, if_neg h, ih, joinText, List.mem_cons, h2, false_or]

theorem keyStep_eq (toLower : String → String) (tags : String → String) (exset : Bool)
    (i : Nat) (key raw : String) (values : List Value) :
    keyStep toLower tags exset i key raw values =
      addParts raw values (keyGroup toLower tags
        (if i = 0 then (if !exset then " WHERE" else " AND") else " AND") key) := by
  unfold keyStep keyGroup recognized
  by_cases h1 : toLower key = "uploader"
  · simp [h1]
  by_cases h2 : toLower key = "description"
  · simp [h2]
  by_cases h3 : toLower key = "title"
  · simp [h3]
  by_cases h4 : toLower key = "terminated"
  · simp [h4]
  by_cases h5 : toLower key = "uploader_url"
  · simp [h5]
  simp [h1, h2, h3, h4, h5, addParts]

theorem keyGroup_snd (toLower : String → String) (tags : String → String)
    (pfx key : String) :
    (keyGroup toLower tags pfx key).2 =
      if recognized (toLower key) then segmentValues (tags key) else [] := by
  unfold keyGroup
  split <;> simp [buildParts_snd]

theorem keyLoop_later (toLower : String → String) (tags : String → String) (exset : Bool)
    (keys : List String) :
    ∀ (i : Nat) (raw : String) (values : List Value), i ≠ 0 →
      keyLoop toLower tags exset i keys raw values =
        (raw ++ andGroups toLower tags keys, values ++ groupValues toLower tags keys) := by
  induction keys with
  | nil => intro i raw values _; simp [keyLoop, andGroups, groupValues, concat]
  | cons key rest ih =>
    intro i raw values hi
    rw [keyLoop, ih (i + 1) _ _ (Nat.succ_ne_zero i), keyStep_eq]
    simp only [if_neg hi, addParts, andGroups, groupValues, List.map_cons, concat,
      List.flatMap_cons, keyGroup_snd, String.append_assoc, List.append_assoc]

theorem keyLoop_zero (toLower : String → String) (tags : String → String) (exset : Bool)
    (keys : List String) (raw : String) (values : List Value) :
    keyLoop toLower tags exset 0 keys raw values =
      (raw ++ loopGroups toLower tags exset keys,
        values ++ groupValues toLower tags keys) := by
  cases keys with
  | nil => simp [keyLoop, loopGroups, groupValues]
  | cons key rest =>
    rw [keyLoop, keyLoop_later toLower tags exset rest (0 + 1) _ _ (by decide), keyStep_eq]
    cases exset <;>
    simp only [addParts, loopGroups, groupValues, List.flatMap_cons, keyGroup_snd,
      String.append_assoc, List.append_assoc, if_true, Bool.not_false, Bool.not_true,
      Bool.false_eq_true, if_false]

/-- The query text and the bound values of `buildVideosQuery`, piece by piece. -/
theorem buildVideosQuery_eq (toLower : String → String) (exquery : String)
    (tags : String → String) (keys : List String) (limit page : Int) :
    buildVideosQuery toLower exquery tags keys limit page =
      ("SELECT a.* FROM videos a" ++ joinText keys ++ freeTextPredicate exquery ++
          loopGroups toLower tags (decide (exquery ≠ "")) keys ++
          " ORDER BY upload_date DESC" ++ limitText limit page,
        freeTextValues exquery ++ groupValues toLower tags keys ++
          limitValues limit page) := by
  unfold buildVideosQuery
  simp only [joinLoop_eq, keyLoop_zero, freeTextPredicate, freeTextValues, limitText,
    limitValues]
  by_cases hex : exquery = "" <;> by_cases hl : 0 ≤ limit <;> by_cases hp : 0 ≤ page <;>
    simp [hex, hl, hp, String.append_assoc]

/-! ## Counting placeholders -/

theorem placeholders_append (s t : String) :
    placeholders (s ++ t) = placeholders s + placeholders t := by
  simp [placeholders, String.data_append, List.count_append]

theorem placeholders_concat (l : List String) :
    placeholders (concat l) = (l.map placeholders).sum := by
  induction l with
  | nil => rfl
  | cons s ss ih => simp [concat, placeholders_append, ih]

theorem placeholders_anchorTerm (field s0 : String) (hf : placeholders field = 0) :
    placeholders (anchorTerm field s0) = 1 := by
  unfold anchorTerm
  split <;> simp [placeholders_append, hf] <;> decide

theorem placeholders_laterTerm (field seg : String) (hf : placeholders field = 0) :
    placeholders (laterTerm field seg) = 1 := by
  unfold laterTerm
  split_ifs <;> simp [placeholders_append, hf] <;> decide

theorem placeholders_laterTerms (field : String) (rest : List String)
    (hf : placeholders field = 0) :
    ((rest.map (laterTerm field)).map placeholders).sum = rest.length := by
  induction rest with
  | nil => rfl
  | cons r rs ih =>
    simp only [List.map_cons, List.sum_cons, placeholders_laterTerm field r hf, ih,
      List.length_cons]
    omega

theorem placeholders_buildParts (field pfx value : String)
    (hf : placeholders field = 0) (hp : placeholders pfx = 0) :
    placeholders (buildParts field pfx value).1 = (segmentValues value).length := by
  cases h : splitComma value with
  | nil => exact absurd h (splitComma_ne_nil value)
  | cons s0 rest =>
    rw [buildParts_cons field pfx value s0 rest h, segmentValues, h]
    have hsum := placeholders_laterTerms field rest hf
    have h1 : placeholders " (" = 0 := by decide
    have h2 : placeholders ")" = 0 := by decide
    simp only [placeholders_append, placeholders_concat, hsum, hp, h1, h2,
      placeholders_anchorTerm field s0 hf, List.length_cons, List.length_map]
    omega

theorem recognized_cases (v : String) (h : recognized v = true) :
    v = "uploader" ∨ v = "description" ∨ v = "title" ∨ v = "terminated" ∨
      v = "uploader_url" := by
  simpa [recognized, or_assoc] using h

theorem placeholders_keyGroup (toLower : String → String) (tags : String → String)
    (pfx key : String) (hp : placeholders pfx = 0) :
    placeholders (keyGroup toLower tags pfx key).1 =
      (if recognized (toLower key) then segmentValues (tags key) else []).length := by
  unfold keyGroup
  by_cases h : recognized (toLower key) = true
  · have hf : placeholders (toLower key) = 0 := by
      rcases recognized_cases _ h with e | e | e | e | e <;> rw [e] <;> decide
    simp only [h, if_true]
    exact placeholders_buildParts _ _ _ hf hp
  · simp only [h, if_false, Bool.false_eq_true]
    rfl

theorem placeholders_andGroups (toLower : String → String) (tags : String → String)
    (keys : List String) :
    placeholders (andGroups toLower tags keys) = (groupValues toLower tags keys).length := by
  induction keys with
  | nil => rfl
  | cons k rest ih =>
    have hk := placeholders_keyGroup toLower tags " AND" k (by decide)
    simp only [andGroups, List.map_cons, concat, placeholders_append] at ih ⊢
    rw [ih, hk]
    simp [groupValues]

theorem placeholders_loopGroups (toLower : String → String) (tags : String → String)
    (exset : Bool) (keys : List String) :
    placeholders (loopGroups toLower tags exset keys) =
      (groupValues toLower tags keys).length := by
  cases keys with
  | nil => rfl
  | cons k rest =>
    have hk := placeholders_keyGroup toLower tags (if exset then " AND" else " WHERE") k
      (by cases exset <;> decide)
    simp only [loopGroups, placeholders_append, placeholders_andGroups, hk]
    simp [groupValues]

theorem placeholders_freeTextPredicate (exquery : String) :
    placeholders (freeTextPredicate exquery) = (freeTextValues exquery).length := by
  unfold freeTextPredicate freeTextValues
  split <;> simp <;> decide

theorem placeholders_limitText (limit page : Int) :
    placeholders (limitText limit page) = (limitValues limit page).length := by
  unfold limitText limitValues
  split_ifs <;> simp <;> decide

/-! ## Characters that never occur in a group -/

theorem not_mem_concat (c : Char) (l : List String) (h : ∀ s ∈ l, c ∉ s.data) :
    c ∉ (concat l).data := by
  induction l with
  | nil => simp [concat]
  | cons s ss ih =>
    simp only [concat, String.data_append, List.mem_append, not_or]
    exact ⟨h s (List.mem_cons_self _ _), ih (fun t ht => h t (List.mem_cons_of_mem _ ht))⟩

theorem not_mem_anchorTerm (c : Char) (field s0 : String)
    (ha : c ∉ groupAlphabet.data) (hf : c ∉ field.data) :
    c ∉ (anchorTerm field s0).data := by
  simp [groupAlphabet] at ha
  unfold anchorTerm
  split <;> simp [String.data_append, hf, ha]

theorem not_mem_laterTerm (c : Char) (field seg : String)
    (ha : c ∉ groupAlphabet.data) (hf : c ∉ field.data) :
    c ∉ (laterTerm field seg).data := by
  simp [groupAlphabet] at ha
  unfold laterTerm
  split_ifs <;> simp [String.data_append, hf, ha]

theorem not_mem_buildParts (c : Char) (field pfx value : String)
    (ha : c ∉ groupAlphabet.data) (hf : c ∉ field.data) (hp : c ∉ pfx.data) :
    c ∉ (buildParts field pfx value).1.data := by
  cases h : splitComma value with
  | nil => exact absurd h (splitComma_ne_nil value)
  | cons s0 rest =>
    rw [buildParts_cons field pfx value s0 rest h]
    have h1 := not_mem_anchorTerm c field s0 ha hf
    have h2 : c ∉ (concat (rest.map (laterTerm field))).data := by
      apply not_mem_concat
      intro s hs
      obtain ⟨seg, _, rfl⟩ := List.mem_map.mp hs
      exact not_mem_laterTerm c field seg ha hf
    simp [groupAlphabet] at ha
    simp [String.data_append, h1, h2, hp, ha]

theorem not_mem_keyGroup (c : Char) (toLower : String → String) (tags : String → String)
    (pfx key : String) (ha : c ∉ groupAlphabet.data) (hp : c ∉ pfx.data) :
    c ∉ (keyGroup toLower tags pfx key).1.data := by
  unfold keyGroup
  by_cases h : recognized (toLower key) = true
  · have hf : c ∉ (toLower key).data := by
      have ha2 := ha
      simp [groupAlphabet] at ha2
      rcases recognized_cases _ h with e | e | e | e | e <;> rw [e] <;> simp [ha2]
    simp only [h, if_true]
    exact not_mem_buildParts c _ _ _ ha hf hp
  · simp [h]

theorem not_mem_andGroups (c : Char) (toLower : String → String) (tags : String → String)
    (keys : List String) (ha : c ∉ groupAlphabet.data) :
    c ∉ (andGroups toLower tags keys).data := by
  apply not_mem_concat
  intro s hs
  obtain ⟨k, _, rfl⟩ := List.mem_map.mp hs
  apply not_mem_keyGroup c toLower tags " AND" k ha
  simp [groupAlphabet] at ha
  simp [ha]

theorem not_mem_loopGroups (c : Char) (toLower : String → String) (tags : String → String)
    (exset : Bool) (keys : List String) (ha : c ∉ groupAlphabet.data)
    (hw : c ∉ " WHERE".data) :
    c ∉ (loopGroups toLower tags exset keys).data := by
  cases keys with
  | nil => simp [loopGroups]
  | cons k rest =>
    have h2 := not_mem_andGroups c toLower tags rest ha
    have h1 : c ∉ (keyGroup toLower tags (if exset then " AND" else " WHERE") k).1.data := by
      apply not_mem_keyGroup c toLower tags _ k ha
      simp [groupAlphabet] at ha
      simp at hw
      cases exset <;> simp [ha, hw]
    simp [loopGroups, String.data_append, h1, h2]

/-! ## Occurrences of a pattern -/

theorem containsChars_iff (pat s : List Char) :
    containsChars pat s = true ↔ pat <:+: s := by
  induction s with
  | nil =>
    simp only [containsChars, List.isPrefixOf_iff_prefix, List.prefix_nil, List.infix_nil]
  | cons c cs ih =>
    simp only [containsChars, Bool.or_eq_true, List.isPrefixOf_iff_prefix, ih,
      List.infix_cons_iff]

/-- An occurrence in `a ++ b` of a pattern holding a character that `b` lacks starts
inside `a`, with the pattern up to that character inside `a`. -/
theorem infix_left_of_not_mem (p1 p2 a b : List Char) (c : Char) (hc : c ∉ b)
    (h : p1 ++ c :: p2 <:+: a ++ b) : p1 ++ [c] <:+: a := by
  obtain ⟨s, t, hst⟩ := h
  have e : a ++ b = (s ++ (p1 ++ [c])) ++ (p2 ++ t) := by
    rw [← hst]; simp [List.append_assoc]
  rcases List.append_eq_append_iff.mp e with ⟨a1, h1, h2⟩ | ⟨c1, h1, _⟩
  · rcases List.eq_nil_or_concat a1 with rfl | ⟨l, x, rfl⟩
    · exact ⟨s, [], by simp [h1]⟩
    · exfalso
      have h3 : s ++ (p1 ++ [c]) = (a ++ l) ++ [x] := by
        rw [h1]; simp [List.append_assoc]
      have h4 : (s ++ p1) ++ [c] = (a ++ l) ++ [x] := by
        rw [← h3]; simp [List.append_assoc]
      have h5 := List.append_inj_right' h4 rfl
      have h6 : x = c := by simpa using h5.symm
      apply hc
      rw [h2, h6]
      simp
  · exact ⟨s, c1, by rw [h1]⟩

theorem occurrencesChars_le_count (p1 p2 : List Char) (c : Char) (s : List Char) :
    occurrencesChars (p1 ++ c :: p2) s ≤ (s.drop p1.length).count c := by
  induction s with
  | nil =>
    have : ¬ (p1 ++ c :: p2) <+: [] := by simp
    simp [occurrencesChars, List.isPrefixOf_iff_prefix, this]
  | cons x xs ih =>
    have hle : (xs.drop p1.length).count c ≤ ((x :: xs).drop p1.length).count c := by
      apply List.Sublist.count_le
      have : xs.drop p1.length = ((x :: xs).drop p1.length).drop 1 := by
        rw [List.drop_drop]; simp [Nat.add_comm]
      rw [this]
      exact List.drop_sublist _ _
    by_cases hp : (p1 ++ c :: p2) <+: (x :: xs)
    · obtain ⟨t, ht⟩ := hp
      have hd : (x :: xs).drop p1.length = c :: (p2 ++ t) := by
        rw [← ht, List.append_assoc, List.drop_left]; rfl
      have hd2 : xs.drop p1.length = p2 ++ t := by
        have : xs.drop p1.length = ((x :: xs).drop p1.length).drop 1 := by
          rw [List.drop_drop]; simp [Nat.add_comm]
        rw [this, hd]; rfl
      have hpre : (p1 ++ c :: p2).isPrefixOf (x :: xs) = true :=
        List.isPrefixOf_iff_prefix.mpr ⟨t, ht⟩
      simp only [occurrencesChars, hpre, if_true]
      rw [hd2] at ih
      rw [hd, List.count_cons_self]
      omega
    · have hpre : ¬ (p1 ++ c :: p2).isPrefixOf (x :: xs) = true :=
        fun h => hp (List.isPrefixOf_iff_prefix.mp h)
      simp only [occurrencesChars, hpre, if_false, Nat.zero_add, Bool.false_eq_true]
      exact le_trans ih hle

theorem occurrencesChars_le_count_all (p1 p2 : List Char) (c : Char) (s : List Char) :
    occurrencesChars (p1 ++ c :: p2) s ≤ s.count c :=
  le_trans (occurrencesChars_le_count p1 p2 c s)
    (List.Sublist.count_le (List.drop_sublist _ _) c)

theorem occurrencesChars_pos (a pat b : List Char) :
    1 ≤ occurrencesChars pat (a ++ (pat ++ b)) := by
  induction a with
  | nil =>
    have hpre : pat.isPrefixOf (pat ++ b) = true :=
      List.isPrefixOf_iff_prefix.mpr (List.prefix_append _ _)
    cases hpb : pat ++ b with
    | nil =>
      rw [hpb] at hpre
      simp [occurrencesChars, hpre]
    | cons x xs =>
      rw [hpb] at hpre
      simp only [List.nil_append, occurrencesChars, hpre, if_true]
      omega
  | cons x xs ih =>
    have hstep : occurrencesChars pat (xs ++ (pat ++ b)) ≤
        occurrencesChars pat (x :: (xs ++ (pat ++ b))) := by
      rw [occurrencesChars]
      exact Nat.le_add_left _ _
    exact le_trans ih hstep

theorem loopGroups_true (toLower : String → String) (tags : String → String)
    (keys : List String) :
    loopGroups toLower tags true keys = andGroups toLower tags keys := by
  cases keys with
  | nil => rfl
  | cons k rest => simp [loopGroups, andGroups, concat]

theorem buildVideosQuery_fst (toLower : String → String) (exquery : String)
    (tags : String → String) (keys : List String) (limit page : Int) :
    (buildVideosQuery toLower exquery tags keys limit page).1 =
      "SELECT a.* FROM videos a" ++
        (joinText keys ++ afterJoin toLower exquery tags keys limit page) := by
  rw [buildVideosQuery_eq]
  simp [afterJoin, String.append_assoc]

theorem not_mem_afterJoin (c : Char) (toLower : String → String) (exquery : String)
    (tags : String → String) (keys : List String) (limit page : Int)
    (ha : c ∉ groupAlphabet.data) (hw : c ∉ " WHERE".data)
    (ht : c ∉ " WHERE title LIKE ?".data)
    (ho : c ∉ " ORDER BY upload_date DESC".data) (h3 : c ∉ (limitText limit page).data) :
    c ∉ (afterJoin toLower exquery tags keys limit page).data := by
  have h1 : c ∉ (freeTextPredicate exquery).data := by
    unfold freeTextPredicate
    split
    · exact ht
    · simp
  have h2 := not_mem_loopGroups c toLower tags (decide (exquery ≠ "")) keys ha hw
  simp only [afterJoin, String.data_append, List.mem_append, not_or]
  exact ⟨⟨⟨h1, h2⟩, ho⟩, h3⟩

theorem hasSuffix_append (s p : String) : hasSuffix (s ++ p) p = true := by
  simp only [hasSuffix, String.data_append, List.reverse_append,
    List.isPrefixOf_iff_prefix]
  exact List.prefix_append _ _

/-! ## Lemmas on `float64` rounding and the page count -/

theorem roundHalfEven_ge (w : ℚ) : w - 1 / 2 ≤ (roundHalfEven w : ℚ) := by
  have h1 := Int.floor_le w
  have h2 := Int.lt_floor_add_one w
  unfold roundHalfEven
  split_ifs <;> push_cast <;> linarith

theorem roundHalfEven_le (w : ℚ) : (roundHalfEven w : ℚ) ≤ w + 1 / 2 := by
  have h1 := Int.floor_le w
  have h2 := Int.lt_floor_add_one w
  unfold roundHalfEven
  split_ifs <;> push_cast <;> linarith

theorem le_roundHalfEven (w : ℚ) (n : Int) (h : (n : ℚ) - 1 / 2 < w) :
    n ≤ roundHalfEven w := by
  have h1 := roundHalfEven_ge w
  have h2 : ((n - 1 : Int) : ℚ) < (roundHalfEven w : ℚ) := by push_cast; linarith
  have h3 : n - 1 < roundHalfEven w := by exact_mod_cast h2
  omega

theorem roundHalfEven_le_of_lt (w : ℚ) (n : Int) (h : w < (n : ℚ) + 1 / 2) :
    roundHalfEven w ≤ n := by
  have h1 := roundHalfEven_le w
  have h2 : (roundHalfEven w : ℚ) < ((n + 1 : Int) : ℚ) := by push_cast; linarith
  have h3 : roundHalfEven w < n + 1 := by exact_mod_cast h2
  omega

theorem roundHalfEven_eq (w : ℚ) (n : Int) (h1 : (n : ℚ) - 1 / 2 < w)
    (h2 : w < (n : ℚ) + 1 / 2) : roundHalfEven w = n :=
  le_antisymm (roundHalfEven_le_of_lt w n h2) (le_roundHalfEven w n h1)

theorem roundHalfEven_intCast (n : Int) : roundHalfEven (n : ℚ) = n :=
  roundHalfEven_eq _ n (by linarith) (by linarith)

theorem roundHalfEven_tie_even (n : Int) (hn : n % 2 = 0) :
    roundHalfEven ((n : ℚ) + 1 / 2) = n := by
  have hf : ⌊(n : ℚ) + 1 / 2⌋ = n := by
    rw [Int.floor_eq_iff]
    constructor <;> linarith
  unfold roundHalfEven
  rw [hf]
  have h1 : ¬ ((n : ℚ) + 1 / 2 - (n : ℚ) < 1 / 2) := by
    intro h; linarith
  have h2 : ¬ ((1 : ℚ) / 2 < (n : ℚ) + 1 / 2 - (n : ℚ)) := by
    intro h; linarith
  rw [if_neg h1, if_neg h2, if_pos hn]

theorem log_eq_of_bounds (w : ℚ) (e : Int) (h1 : (2 : ℚ) ^ e ≤ w) (h2 : w < (2 : ℚ) ^ (e + 1)) :
    Int.log 2 w = e := by
  have hw : 0 < w := lt_of_lt_of_le (zpow_pos (by norm_num) e) h1
  have a : e ≤ Int.log 2 w := by
    have := (Int.zpow_le_iff_le_log (b := 2) (by norm_num) (x := e) hw).mp
      (by exact_mod_cast h1)
    exact this
  have b : Int.log 2 w < e + 1 := by
    have := (Int.lt_zpow_iff_log_lt (b := 2) (by norm_num) (x := e + 1) hw).mp
      (by exact_mod_cast h2)
    exact this
  omega

theorem float64_pos_eq (w : ℚ) (hw : 0 < w) :
    float64 w = (roundHalfEven (w / 2 ^ (Int.log 2 w - 52)) : ℚ) * 2 ^ (Int.log 2 w - 52) := by
  unfold float64
  rw [if_neg (ne_of_gt hw), abs_of_pos hw]

theorem zpow_log_le (w : ℚ) (hw : 0 < w) : (2 : ℚ) ^ Int.log 2 w ≤ w := by
  have := Int.zpow_log_le_self (b := 2) (r := w) (by norm_num) hw
  exact_mod_cast this

theorem lt_zpow_log_succ (w : ℚ) : w < (2 : ℚ) ^ (Int.log 2 w + 1) := by
  have := Int.lt_zpow_succ_log_self (b := 2) (by norm_num) w
  exact_mod_cast this

theorem half_ulp (e : Int) : (2 : ℚ) ^ (e - 52) / 2 = 2 ^ (e - 53) := by
  have : e - 53 = (e - 52) - 1 := by ring
  rw [this, zpow_sub_one₀ (by norm_num : (2 : ℚ) ≠ 0)]
  ring

theorem float64_sub_le (w : ℚ) (hw : 0 < w) :
    |float64 w - w| ≤ 2 ^ (Int.log 2 w - 53) := by
  rw [float64_pos_eq w hw, ← half_ulp]
  have hg : (0 : ℚ) < 2 ^ (Int.log 2 w - 52) := zpow_pos (by norm_num) _
  have h1 := roundHalfEven_ge (w / 2 ^ (Int.log 2 w - 52))
  have h2 := roundHalfEven_le (w / 2 ^ (Int.log 2 w - 52))
  have hw2 : w = w / 2 ^ (Int.log 2 w - 52) * 2 ^ (Int.log 2 w - 52) := by
    field_simp
  rw [abs_le]
  constructor
  · nlinarith
  · nlinarith

theorem float64_rel (w : ℚ) (hw : 0 ≤ w) : |float64 w - w| ≤ w / 2 ^ 53 := by
  rcases eq_or_lt_of_le hw with h | h
  · rw [← h]; simp [float64]
  · refine le_trans (float64_sub_le w h) ?_
    have h1 := zpow_log_le w h
    have : (2 : ℚ) ^ (Int.log 2 w - 53) = 2 ^ Int.log 2 w / 2 ^ 53 := by
      rw [zpow_sub₀ (by norm_num : (2 : ℚ) ≠ 0)]
      norm_num
    rw [this]
    exact div_le_div_of_nonneg_right h1 (by positivity)

theorem le_float64_of_grid (w : ℚ) (hw : 0 < w) (n : Int)
    (h : (n : ℚ) * 2 ^ (Int.log 2 w - 52) - 2 ^ (Int.log 2 w - 53) < w) :
    (n : ℚ) * 2 ^ (Int.log 2 w - 52) ≤ float64 w := by
  rw [float64_pos_eq w hw]
  have hg : (0 : ℚ) < 2 ^ (Int.log 2 w - 52) := zpow_pos (by norm_num) _
  rw [← half_ulp] at h
  have h1 : (n : ℚ) - 1 / 2 < w / 2 ^ (Int.log 2 w - 52) := by
    rw [lt_div_iff₀ hg]
    linarith
  have h2 := le_roundHalfEven _ n h1
  have h3 : (n : ℚ) ≤ (roundHalfEven (w / 2 ^ (Int.log 2 w - 52)) : ℚ) := by exact_mod_cast h2
  exact mul_le_mul_of_nonneg_right h3 (le_of_lt hg)

theorem float64_eq (w : ℚ) (e m : Int) (h1 : (2 : ℚ) ^ e ≤ w) (h2 : w < (2 : ℚ) ^ (e + 1))
    (hm : roundHalfEven (w / 2 ^ (e - 52)) = m) : float64 w = (m : ℚ) * 2 ^ (e - 52) := by
  have hw : 0 < w := lt_of_lt_of_le (zpow_pos (by norm_num) e) h1
  rw [float64_pos_eq w hw, log_eq_of_bounds w e h1 h2, hm]

theorem float64_pos (w : ℚ) (hw : 0 < w) : 0 < float64 w := by
  rw [float64_pos_eq w hw]
  have hg : (0 : ℚ) < 2 ^ (Int.log 2 w - 52) := zpow_pos (by norm_num) _
  apply mul_pos _ hg
  have h1 := roundHalfEven_ge (w / 2 ^ (Int.log 2 w - 52))
  have h2 : (2 : ℚ) ^ (52 : Int) ≤ w / 2 ^ (Int.log 2 w - 52) := by
    rw [le_div_iff₀ hg, ← zpow_add₀ (by norm_num : (2 : ℚ) ≠ 0)]
    have : (52 : Int) + (Int.log 2 w - 52) = Int.log 2 w := by ring
    rw [this]
    exact zpow_log_le w hw
  have h3 : (1 : ℚ) ≤ 2 ^ (52 : Int) := by norm_num
  linarith

/-- A non-negative integer below `2^53` on the grid of any value below `2^53`. -/
theorem int_on_grid (k : Int) (e : Int) (he : e ≤ 52) :
    ∃ n : Int, (n : ℚ) * 2 ^ (e - 52) = (k : ℚ) := by
  refine ⟨k * 2 ^ (52 - e).toNat, ?_⟩
  have hd : ((52 - e).toNat : Int) = 52 - e := Int.toNat_of_nonneg (by omega)
  have h2 : (2 : ℚ) ^ (52 - e).toNat = 2 ^ (52 - e) := by
    rw [← zpow_natCast, hd]
  push_cast
  rw [h2, mul_assoc, ← zpow_add₀ (by norm_num : (2 : ℚ) ≠ 0)]
  have : 52 - e + (e - 52) = 0 := by ring
  rw [this, zpow_zero, mul_one]

theorem float64_intCast (n : Int) (h0 : 0 ≤ n) (h1 : n < 2 ^ 53) :
    float64 (n : ℚ) = (n : ℚ) := by
  rcases eq_or_lt_of_le h0 with h | h
  · rw [← h]; simp [float64]
  · have hw : (0 : ℚ) < (n : ℚ) := by exact_mod_cast h
    have he : Int.log 2 (n : ℚ) ≤ 52 := by
      have hlt : (n : ℚ) < ((2 : ℕ) : ℚ) ^ (53 : Int) := by
        have h53 : (n : ℚ) < 2 ^ 53 := by exact_mod_cast h1
        have hpow : ((2 : ℕ) : ℚ) ^ (53 : Int) = 2 ^ 53 := by norm_num
        rw [hpow]
        exact h53
      have := (Int.lt_zpow_iff_log_lt (b := 2) (by norm_num) (x := 53) hw).mp hlt
      omega
    obtain ⟨N, hN⟩ := int_on_grid n _ he
    rw [float64_pos_eq _ hw]
    have hg : (0 : ℚ) < 2 ^ (Int.log 2 (n : ℚ) - 52) := zpow_pos (by norm_num) _
    have : (n : ℚ) / 2 ^ (Int.log 2 (n : ℚ) - 52) = (N : ℚ) := by
      rw [div_eq_iff (ne_of_gt hg), hN]
    rw [this, roundHalfEven_intCast, hN]

theorem float64_nine_tenths : float64 (9 / 10) = 8106479329266893 / 2 ^ 53 := by
  have h := float64_eq (9 / 10) (-1) 8106479329266893 (by norm_num) (by norm_num)
    (roundHalfEven_eq _ _ (by norm_num) (by norm_num))
  rw [h]
  norm_num


theorem log_le_52 (z : ℚ) (hz : 0 < z) (h : z < 2 ^ 53) : Int.log 2 z ≤ 52 := by
  have hlt : z < ((2 : ℕ) : ℚ) ^ (53 : Int) := by
    have hpow : ((2 : ℕ) : ℚ) ^ (53 : Int) = 2 ^ 53 := by norm_num
    rw [hpow]
    exact h
  have := (Int.lt_zpow_iff_log_lt (b := 2) (by norm_num) (x := 53) hz).mp hlt
  omega

/-- The float64 sum `fl(fl(q) + fl(0.9))` lies in `[k, k+1)` for `k = floor(q + 0.9)`,
for a quotient `q = T / L` of integers below `2^48`. -/
theorem float64_sum_bounds (T L : ℚ) (k : Int) (hT0 : 0 ≤ T) (hT : T ≤ 2 ^ 48)
    (hL1 : 1 ≤ L) (hL : L ≤ 2 ^ 48)
    (hk1 : (k : ℚ) ≤ T / L + 9 / 10)
    (hk2 : 10 * T + 9 * L + 1 ≤ 10 * L * ((k : ℚ) + 1)) :
    (k : ℚ) ≤ float64 (float64 (T / L) + 8106479329266893 / 2 ^ 53) ∧
    float64 (float64 (T / L) + 8106479329266893 / 2 ^ 53) < (k : ℚ) + 1 := by
  have hLpos : (0 : ℚ) < L := by linarith
  have hq0 : 0 ≤ T / L := div_nonneg hT0 (le_of_lt hLpos)
  have hqT : T / L ≤ T := div_le_self hT0 hL1
  have hqL : T / L * L = T := div_mul_cancel₀ T (ne_of_gt hLpos)
  have hx := float64_rel (T / L) hq0
  rw [abs_le] at hx
  have hz0 : 0 < float64 (T / L) + 8106479329266893 / 2 ^ 53 := by
    have : (0 : ℚ) ≤ T / L / 2 ^ 53 := by positivity
    have h2 : T / L / 2 ^ 53 ≤ T / L := div_le_self hq0 (by norm_num)
    linarith
  have hs := float64_rel _ (le_of_lt hz0)
  rw [abs_le] at hs
  constructor
  · -- lower bound
    by_cases hk : k ≤ 0
    · have hpos := float64_pos _ hz0
      have : (k : ℚ) ≤ 0 := by exact_mod_cast hk
      linarith
    · have hk' : (1 : ℚ) ≤ (k : ℚ) := by
        have : 1 ≤ k := by omega
        exact_mod_cast this
      have hq : 0 < T / L := by linarith
      have hqz : T / L ≤ float64 (T / L) + 8106479329266893 / 2 ^ 53 := by
        have h2 : T / L / 2 ^ 53 ≤ 2 ^ 48 / 2 ^ 53 :=
          div_le_div_of_nonneg_right (le_trans hqT hT) (by positivity)
        norm_num at h2 ⊢
        linarith
      have hlog := Int.log_mono_right (b := 2) hq hqz
      have hz53 : float64 (T / L) + 8106479329266893 / 2 ^ 53 < 2 ^ 53 := by
        have h2 : T / L / 2 ^ 53 ≤ T / L := div_le_self hq0 (by norm_num)
        norm_num at hT ⊢
        linarith
      have he := log_le_52 _ hz0 hz53
      have hxa := float64_sub_le (T / L) hq
      rw [abs_le] at hxa
      have hpow : (2 : ℚ) ^ (Int.log 2 (T / L) - 53) ≤
          2 ^ (Int.log 2 (float64 (T / L) + 8106479329266893 / 2 ^ 53) - 53) :=
        zpow_le_zpow_right₀ (by norm_num) (by omega)
      obtain ⟨N, hN⟩ := int_on_grid k _ he
      have hgrid := le_float64_of_grid _ hz0 N (by
        rw [hN]
        have hc : (9 : ℚ) / 10 < 8106479329266893 / 2 ^ 53 := by norm_num
        linarith)
      rw [hN] at hgrid
      exact hgrid
  · -- upper bound
    have hzle : float64 (T / L) + 8106479329266893 / 2 ^ 53 ≤
        T / L + T / L / 2 ^ 53 + 8106479329266893 / 2 ^ 53 := by linarith
    have h1 : L * (float64 (T / L) + 8106479329266893 / 2 ^ 53) ≤
        T + T / 2 ^ 53 + L * (8106479329266893 / 2 ^ 53) := by
      have := mul_le_mul_of_nonneg_left hzle (le_of_lt hLpos)
      have e : L * (T / L + T / L / 2 ^ 53 + 8106479329266893 / 2 ^ 53) =
          T / L * L + T / L * L / 2 ^ 53 + L * (8106479329266893 / 2 ^ 53) := by ring
      rw [e, hqL] at this
      exact this
    have h2 : L * float64 (float64 (T / L) + 8106479329266893 / 2 ^ 53) ≤
        L * (float64 (T / L) + 8106479329266893 / 2 ^ 53) +
          L * (float64 (T / L) + 8106479329266893 / 2 ^ 53) / 2 ^ 53 := by
      have := mul_le_mul_of_nonneg_left hs.2 (le_of_lt hLpos)
      have e : L * (float64 (T / L) + 8106479329266893 / 2 ^ 53) +
          L * (float64 (T / L) + 8106479329266893 / 2 ^ 53) / 2 ^ 53 =
          L * ((float64 (T / L) + 8106479329266893 / 2 ^ 53) / 2 ^ 53 +
            (float64 (T / L) + 8106479329266893 / 2 ^ 53)) := by ring
      rw [e]
      linarith
    have h3 : L * float64 (float64 (T / L) + 8106479329266893 / 2 ^ 53) <
        L * ((k : ℚ) + 1) := by
      have h4 : L * (float64 (T / L) + 8106479329266893 / 2 ^ 53) / 2 ^ 53 ≤
          (T + T / 2 ^ 53 + L * (8106479329266893 / 2 ^ 53)) / 2 ^ 53 :=
        div_le_div_of_nonneg_right h1 (by positivity)
      norm_num at hT hL h1 h2 h4 hk2 ⊢
      linarith
    exact lt_of_mul_lt_mul_left h3 (le_of_lt hLpos)

theorem truncToInt_of_bounds (s : ℚ) (k : Int) (h1 : (k : ℚ) ≤ s) (h2 : s < (k : ℚ) + 1)
    (h0 : 0 ≤ s) : truncToInt s = k := by
  rw [truncToInt, if_pos h0, Int.floor_eq_iff]
  exact ⟨h1, h2⟩

/-- In the range below `2^48` the float64 page count is the exact-rational one. -/
theorem pageCount_eq_exact (total limit : Int) (h0 : 0 ≤ total) (ht : total < 2 ^ 48)
    (hl1 : 1 ≤ limit) (hl : limit < 2 ^ 48) :
    pageCount total limit = pageCountExact total limit := by
  unfold pageCount pageCountExact
  rw [float64_intCast total h0 (by omega), float64_intCast limit (by omega) (by omega),
    float64_nine_tenths]
  have hT0 : (0 : ℚ) ≤ (total : ℚ) := by exact_mod_cast h0
  have hT : (total : ℚ) ≤ 2 ^ 48 := by exact_mod_cast (le_of_lt ht)
  have hL1 : (1 : ℚ) ≤ (limit : ℚ) := by exact_mod_cast hl1
  have hL : (limit : ℚ) ≤ 2 ^ 48 := by exact_mod_cast (le_of_lt hl)
  have hLpos : (0 : ℚ) < (limit : ℚ) := by linarith
  have hk1 := Int.floor_le ((total : ℚ) / (limit : ℚ) + 9 / 10)
  have hk2 := Int.lt_floor_add_one ((total : ℚ) / (limit : ℚ) + 9 / 10)
  have hqL : (total : ℚ) / (limit : ℚ) * (limit : ℚ) = (total : ℚ) :=
    div_mul_cancel₀ _ (ne_of_gt hLpos)
  have hk2' : 10 * (total : ℚ) + 9 * (limit : ℚ) + 1 ≤
      10 * (limit : ℚ) * ((⌊(total : ℚ) / (limit : ℚ) + 9 / 10⌋ : ℚ) + 1) := by
    have hm := mul_lt_mul_of_pos_right hk2 (by linarith : (0 : ℚ) < 10 * (limit : ℚ))
    have e : ((total : ℚ) / (limit : ℚ) + 9 / 10) * (10 * (limit : ℚ)) =
        10 * ((total : ℚ) / (limit : ℚ) * (limit : ℚ)) + 9 * (limit : ℚ) := by ring
    rw [e, hqL] at hm
    have hi : 10 * total + 9 * limit <
        (⌊(total : ℚ) / (limit : ℚ) + 9 / 10⌋ + 1) * (10 * limit) := by
      exact_mod_cast hm
    have hi2 : 10 * total + 9 * limit + 1 ≤
        (⌊(total : ℚ) / (limit : ℚ) + 9 / 10⌋ + 1) * (10 * limit) := by omega
    have hc : ((10 * total + 9 * limit + 1 : Int) : ℚ) ≤
        (((⌊(total : ℚ) / (limit : ℚ) + 9 / 10⌋ + 1) * (10 * limit) : Int) : ℚ) := by
      exact_mod_cast hi2
    push_cast at hc
    linarith
  obtain ⟨hb1, hb2⟩ := float64_sum_bounds (total : ℚ) (limit : ℚ) _ hT0 hT hL1 hL hk1 hk2'
  have hk0 : (0 : ℚ) ≤ (⌊(total : ℚ) / (limit : ℚ) + 9 / 10⌋ : ℚ) := by
    have : 0 ≤ ⌊(total : ℚ) / (limit : ℚ) + 9 / 10⌋ := by
      apply Int.floor_nonneg.mpr
      have := div_nonneg hT0 (le_of_lt hLpos)
      linarith
    exact_mod_cast this
  exact truncToInt_of_bounds _ _ hb1 hb2 (le_trans hk0 hb1)


/-- The exact-rational page count in integer arithmetic. -/
theorem pageCountExact_eq_div (total limit : Int) (hl : 1 ≤ limit) :
    pageCountExact total limit = (10 * total + 9 * limit) / (10 * limit) := by
  unfold pageCountExact
  have h2 : (limit : ℚ) ≠ 0 := by
    have : (0 : ℚ) < (limit : ℚ) := by exact_mod_cast (by omega : (0 : Int) < limit)
    exact ne_of_gt this
  obtain ⟨n, hn⟩ := Int.eq_ofNat_of_zero_le (by omega : 0 ≤ 10 * limit)
  have e : (total : ℚ) / (limit : ℚ) + 9 / 10 =
      ((10 * total + 9 * limit : Int) : ℚ) / ((n : Int) : ℚ) := by
    rw [← hn]
    push_cast
    field_simp
    ring
  rw [e, hn]
  exact_mod_cast Rat.floor_intCast_div_natCast (10 * total + 9 * limit) n

theorem float64_two_pow_53_succ : float64 9007199254740993 = 9007199254740992 := by
  have hw : (9007199254740993 : ℚ) / 2 ^ ((53 : Int) - 52) =
      ((4503599627370496 : Int) : ℚ) + 1 / 2 := by norm_num
  have h := float64_eq 9007199254740993 53 4503599627370496 (by norm_num) (by norm_num)
    (by rw [hw]; exact roundHalfEven_tie_even _ (by decide))
  rw [h]
  norm_num

theorem float64_two_pow_53 : float64 9007199254740992 = 9007199254740992 := by
  have hw : (9007199254740992 : ℚ) / 2 ^ ((53 : Int) - 52) =
      ((4503599627370496 : Int) : ℚ) := by norm_num
  have h := float64_eq 9007199254740992 53 4503599627370496 (by norm_num) (by norm_num)
    (by rw [hw]; exact roundHalfEven_intCast _)
  rw [h]
  norm_num

theorem float64_two_pow_53_add :
    float64 (9007199254740992 + 8106479329266893 / 2 ^ 53) = 9007199254740992 := by
  have h := float64_eq (9007199254740992 + 8106479329266893 / 2 ^ 53) 53 4503599627370496
    (by norm_num) (by norm_num) (roundHalfEven_eq _ _ (by norm_num) (by norm_num))
  rw [h]
  norm_num

theorem pageCount_two_pow_53_succ : pageCount 9007199254740993 1 = 9007199254740992 := by
  unfold pageCount
  have h1 : float64 ((1 : Int) : ℚ) = 1 := by
    have := float64_intCast 1 (by decide) (by decide)
    simpa using this
  have hc : ((9007199254740993 : Int) : ℚ) = 9007199254740993 := by norm_num
  rw [h1, hc, float64_two_pow_53_succ, div_one, float64_two_pow_53, float64_nine_tenths,
    float64_two_pow_53_add]
  exact truncToInt_of_bounds _ 9007199254740992 (by norm_num) (by norm_num) (by norm_num)

/-! ## Lemmas on `filterStr` -/

theorem filterStr_foldl (f : Char → Bool) (l : List Char) (acc : String) :
    l.foldl (fun retval v => if f v then retval ++ String.singleton v else retval) acc =
      acc ++ ⟨l.filter f⟩ := by
  induction l generalizing acc with
  | nil => exact String.ext (by simp [String.data_append])
  | cons c cs ih =>
    rw [List.foldl_cons, ih]
    by_cases h : f c = true
    · apply String.ext
      simp [h, String.data_append, String.singleton]
    · simp [h]

/-- What `filterStr` returns: the characters that satisfy `f`, in their order. -/
theorem filterStr_data (str : String) (f : Char → Bool) :
    (filterStr str f).data = str.data.filter f := by
  rw [filterStr, filterStr_foldl]
  simp [String.data_append]

/-! ## No free-text predicate without a free text -/

/-- A character that occurs only once in a sequence splits it in one way only. -/
theorem tail_eq_of_unique (c : Char) (l1 r1 l2 r2 : List Char)
    (h : l1 ++ c :: r1 = l2 ++ c :: r2) (hl : c ∉ l1) (hr : c ∉ r1) : r1 = r2 := by
  rcases List.append_eq_append_iff.mp h with ⟨a1, _, h2⟩ | ⟨c1, h1, h2⟩
  · cases a1 with
    | nil => simpa using h2
    | cons x xs =>
      exfalso
      simp only [List.cons_append, List.cons.injEq] at h2
      apply hr
      rw [h2.2]
      simp
  · cases c1 with
    | nil => simpa using h2.symm
    | cons x xs =>
      exfalso
      simp only [List.cons_append, List.cons.injEq] at h2
      apply hl
      rw [h1, ← h2.1]
      simp

theorem buildParts_fst_shape (field pfx value : String) :
    ∃ body : String, (buildParts field pfx value).1 = pfx ++ (" (" ++ body) ∧
      ∀ c, c ∉ groupAlphabet.data → c ∉ field.data → c ∉ body.data := by
  cases h : splitComma value with
  | nil => exact absurd h (splitComma_ne_nil value)
  | cons s0 rest =>
    refine ⟨anchorTerm field s0 ++ concat (rest.map (laterTerm field)) ++ ")", ?_, ?_⟩
    · rw [buildParts_cons field pfx value s0 rest h]
      simp [String.append_assoc]
    · intro c ha hf
      have h1 := not_mem_anchorTerm c field s0 ha hf
      have h2 : c ∉ (concat (rest.map (laterTerm field))).data := by
        apply not_mem_concat
        intro t ht
        obtain ⟨seg, _, rfl⟩ := List.mem_map.mp ht
        exact not_mem_laterTerm c field seg ha hf
      simp [groupAlphabet] at ha
      simp [String.data_append, h1, h2, ha]

theorem keyGroup_fst_shape (toLower : String → String) (tags : String → String)
    (pfx key : String) (h : recognized (toLower key) = true) :
    ∃ body : String, (keyGroup toLower tags pfx key).1 = pfx ++ (" (" ++ body) ∧
      'W' ∉ body.data := by
  obtain ⟨body, hb, hc⟩ := buildParts_fst_shape (toLower key) pfx (tags key)
  refine ⟨body, ?_, ?_⟩
  · simp only [keyGroup, h, if_true]
    exact hb
  · apply hc 'W' (by decide)
    rcases recognized_cases _ h with e | e | e | e | e <;> rw [e] <;> decide

theorem not_infix_of_not_mem (c : Char) (pat s : List Char) (hp : c ∈ pat) (hs : c ∉ s) :
    ¬ pat <:+: s :=
  fun h => hs (h.subset hp)

/-- With an empty free text the query text nowhere holds ` WHERE title LIKE ?`. -/
theorem no_title_predicate (toLower : String → String) (tags : String → String)
    (keys : List String) (limit page : Int) :
    containsStr (buildVideosQuery toLower "" tags keys limit page).1
      " WHERE title LIKE ?" = false := by
  rw [Bool.eq_false_iff]
  intro hc
  rw [containsStr, containsChars_iff, buildVideosQuery_eq] at hc
  have hA : 'W' ∉ ("SELECT a.* FROM videos a" ++ joinText keys).data := by
    unfold joinText
    split <;> decide
  have hB : 'W' ∉ (" ORDER BY upload_date DESC" ++ limitText limit page).data := by
    unfold limitText
    split_ifs <;> decide
  have hft : freeTextPredicate "" = "" := by decide
  have hd : decide ("" ≠ "") = false := by decide
  simp only [hft, hd, String.append_empty, String.append_assoc] at hc
  have hpW : 'W' ∈ " WHERE title LIKE ?".data := by decide
  cases keys with
  | nil =>
    refine not_infix_of_not_mem 'W' _ _ hpW ?_ hc
    simp only [String.data_append, List.mem_append, not_or] at hA hB ⊢
    simp only [loopGroups, joinText, List.not_mem_nil, if_false] at hA ⊢
    exact ⟨hA.1, hA.2, by decide, hB⟩
  | cons k rest =>
    have hR := not_mem_andGroups 'W' toLower tags rest (by decide)
    by_cases hk : recognized (toLower k) = true
    · obtain ⟨body, hb, hW⟩ := keyGroup_fst_shape toLower tags " WHERE" k hk
      simp only [loopGroups, Bool.false_eq_true, if_false, hb, String.data_append] at hc
      obtain ⟨pre, post, hsp⟩ := hc
      have e : (("SELECT a.* FROM videos a".data ++ (joinText (k :: rest)).data) ++ [' ']) ++
          'W' :: (['H', 'E', 'R', 'E', ' ', '('] ++ body.data ++
            (andGroups toLower tags rest).data ++
            (" ORDER BY upload_date DESC".data ++ (limitText limit page).data)) =
          (pre ++ [' ']) ++ 'W' :: (['H', 'E', 'R', 'E', ' ', 't'] ++
            ("itle LIKE ?".data ++ post)) := by
        simp only [List.append_assoc, List.cons_append, List.nil_append] at hsp ⊢
        exact hsp.symm
      have hl1 : 'W' ∉ ("SELECT a.* FROM videos a".data ++ (joinText (k :: rest)).data) ++
          [' '] := by
        simp only [String.data_append] at hA
        simp only [List.mem_append, not_or] at hA ⊢
        exact ⟨hA, by decide⟩
      have hr1 : 'W' ∉ ['H', 'E', 'R', 'E', ' ', '('] ++ body.data ++
          (andGroups toLower tags rest).data ++
          (" ORDER BY upload_date DESC".data ++ (limitText limit page).data) := by
        simp only [String.data_append] at hB
        simp only [List.mem_append, not_or] at hB ⊢
        exact ⟨⟨⟨by decide, hW⟩, hR⟩, hB⟩
      have ht := tail_eq_of_unique 'W' _ _ _ _ e hl1 hr1
      simp only [List.cons_append, List.nil_append, List.cons.injEq, true_and] at ht
      exact absurd ht.1 (by decide)
    · have hg : (keyGroup toLower tags " WHERE" k).1 = "" := by
        simp [keyGroup, hk]
      refine not_infix_of_not_mem 'W' _ _ hpW ?_ hc
      simp only [String.data_append, List.mem_append, not_or] at hA hB ⊢
      simp only [loopGroups, Bool.false_eq_true, if_false, hg, String.data_append,
        List.mem_append, not_or]
      exact ⟨hA.1, hA.2, ⟨by decide, hR⟩, hB⟩

/-! ## The claims -/

/-- C6. `buildParts` splits the value on `,` into segments `s0 :: rest` (comma-free, and
joined by `,` they give the value back) and returns the text
`pfx ++ " (" ++ term0 ++ later terms ++ ")"`, where `term0` is `field LIKE ?`, or
`field NOT LIKE ?` when `s0` starts with `!`, and a later term is ` OR field LIKE ?` when
its segment starts with `||`, else ` AND field [NOT] LIKE ?`; the bound values are the
segments with that one marker removed, wrapped in `%`, in segment order.  The two
examples of the specification are evaluated. -/
theorem buildParts_spec (field pfx value : String) :
    (∃ s0 rest, splitComma value = s0 :: rest ∧
      [','].intercalate ((s0 :: rest).map String.data) = value.data ∧
      (∀ s ∈ s0 :: rest, ',' ∉ s.data) ∧
      buildParts field pfx value =
        (pfx ++ " (" ++ anchorTerm field s0 ++ concat (rest.map (laterTerm field)) ++ ")",
          anchorValue s0 :: rest.map laterValue)) ∧
    buildParts "uploader" "" "foo,||bar" =
      (" (uploader LIKE ? OR uploader LIKE ?)", [Value.str "%foo%", Value.str "%bar%"]) ∧
    buildParts "uploader" "" "!foo" =
      (" (uploader NOT LIKE ?)", [Value.str "%foo%"]) := by
  refine ⟨?_, by decide, by decide⟩
  cases h : splitComma value with
  | nil => exact absurd h (splitComma_ne_nil value)
  | cons s0 rest =>
    refine ⟨s0, rest, rfl, ?_, ?_, buildParts_cons field pfx value s0 rest h⟩
    · rw [← h, splitComma, List.map_map]
      have : (String.data ∘ String.mk) = (id : List Char → List Char) := by
        funext l; rfl
      rw [this, List.map_id]
      exact intercalate_splitChars ',' value.data
    · intro seg hs
      rw [← h, splitComma] at hs
      obtain ⟨l, hl, rfl⟩ := List.mem_map.mp hs
      exact not_mem_splitChars ',' value.data l hl

/-- C2. The number of `?` placeholders of the query text equals the number of bound
values, and the bound values are, in this order: the free-text value `%freeText%` when the
free text is non-empty, the values of the group of every recognized key in key order (one
per comma-separated segment), then `limit` and `page*limit` (the Go product) when
attached.  The text is made of pieces in the same order and each piece has as many
placeholders as it has values. -/
theorem buildVideosQuery_placeholders (toLower : String → String) (exquery : String)
    (tags : String → String) (keys : List String) (limit page : Int) :
    placeholders (buildVideosQuery toLower exquery tags keys limit page).1 =
      (buildVideosQuery toLower exquery tags keys limit page).2.length ∧
    (buildVideosQuery toLower exquery tags keys limit page).2 =
      freeTextValues exquery ++ groupValues toLower tags keys ++ limitValues limit page ∧
    (buildVideosQuery toLower exquery tags keys limit page).1 =
      "SELECT a.* FROM videos a" ++ joinText keys ++ freeTextPredicate exquery ++
        loopGroups toLower tags (decide (exquery ≠ "")) keys ++
        " ORDER BY upload_date DESC" ++ limitText limit page ∧
    placeholders ("SELECT a.* FROM videos a" ++ joinText keys) = 0 ∧
    placeholders (freeTextPredicate exquery) = (freeTextValues exquery).length ∧
    placeholders (loopGroups toLower tags (decide (exquery ≠ "")) keys) =
      (groupValues toLower tags keys).length ∧
    placeholders " ORDER BY upload_date DESC" = 0 ∧
    placeholders (limitText limit page) = (limitValues limit page).length := by
  have hj : placeholders ("SELECT a.* FROM videos a" ++ joinText keys) = 0 := by
    rw [placeholders_append, joinText]
    split <;> decide
  have ho : placeholders " ORDER BY upload_date DESC" = 0 := by decide
  refine ⟨?_, ?_, ?_, hj, placeholders_freeTextPredicate exquery,
    placeholders_loopGroups toLower tags _ keys, ho, placeholders_limitText limit page⟩
  · rw [buildVideosQuery_eq]
    simp only [placeholders_append, hj, ho, placeholders_freeTextPredicate,
      placeholders_loopGroups, placeholders_limitText, List.length_append]
    omega
  · rw [buildVideosQuery_eq]
  · rw [buildVideosQuery_eq]

/-- C7. For a non-empty free text the query text is the base relation, the optional join
clause, then ` WHERE title LIKE ?`, then the key groups (each introduced by ` AND`), the
ordering and the limit text, and the first bound value is `%freeText%`; for the empty free
text the key groups follow the join clause directly, the text nowhere holds
` WHERE title LIKE ?`, and the bound values are those of the groups and of the limit
only. -/
theorem buildVideosQuery_free_text (toLower : String → String) (exquery : String)
    (tags : String → String) (keys : List String) (limit page : Int) :
    (exquery ≠ "" →
      buildVideosQuery toLower exquery tags keys limit page =
        ("SELECT a.* FROM videos a" ++ joinText keys ++ " WHERE title LIKE ?" ++
            andGroups toLower tags keys ++ " ORDER BY upload_date DESC" ++
            limitText limit page,
          Value.str ("%" ++ exquery ++ "%") ::
            (groupValues toLower tags keys ++ limitValues limit page))) ∧
    (exquery = "" →
      buildVideosQuery toLower exquery tags keys limit page =
        ("SELECT a.* FROM videos a" ++ joinText keys ++ loopGroups toLower tags false keys ++
            " ORDER BY upload_date DESC" ++ limitText limit page,
          groupValues toLower tags keys ++ limitValues limit page) ∧
      containsStr (buildVideosQuery toLower exquery tags keys limit page).1
        " WHERE title LIKE ?" = false) := by
  constructor
  · intro h
    rw [buildVideosQuery_eq]
    simp [freeTextPredicate, freeTextValues, h, loopGroups_true]
  · intro h
    subst h
    refine ⟨?_, no_title_predicate toLower tags keys limit page⟩
    rw [buildVideosQuery_eq]
    simp [freeTextPredicate, freeTextValues]

/-- C7, at the free text `cats` and at the empty free text. -/
theorem buildVideosQuery_free_text_witness :
    (buildVideosQuery asciiToLower "cats" (fun _ => "x") ["uploader"] 20 1 =
        ("SELECT a.* FROM videos a" ++ joinText ["uploader"] ++ " WHERE title LIKE ?" ++
            andGroups asciiToLower (fun _ => "x") ["uploader"] ++
            " ORDER BY upload_date DESC" ++ limitText 20 1,
          Value.str ("%" ++ "cats" ++ "%") ::
            (groupValues asciiToLower (fun _ => "x") ["uploader"] ++ limitValues 20 1))) ∧
    (buildVideosQuery asciiToLower "" (fun _ => "x") ["uploader"] 20 1 =
        ("SELECT a.* FROM videos a" ++ joinText ["uploader"] ++
            loopGroups asciiToLower (fun _ => "x") false ["uploader"] ++
            " ORDER BY upload_date DESC" ++ limitText 20 1,
          groupValues asciiToLower (fun _ => "x") ["uploader"] ++ limitValues 20 1) ∧
      containsStr (buildVideosQuery asciiToLower "" (fun _ => "x") ["uploader"] 20 1).1
        " WHERE title LIKE ?" = false) :=
  ⟨(buildVideosQuery_free_text asciiToLower "cats" (fun _ => "x") ["uploader"] 20 1).1
      (by decide),
    (buildVideosQuery_free_text asciiToLower "" (fun _ => "x") ["uploader"] 20 1).2 rfl⟩

/-- C4. The join clause occurs exactly once in the query text when some key is exactly
`terminated`, however often, and not at all otherwise; the same holds of the words
`INNER JOIN`. -/
theorem buildVideosQuery_join_once (toLower : String → String) (exquery : String)
    (tags : String → String) (keys : List String) (limit page : Int) :
    occurrences (buildVideosQuery toLower exquery tags keys limit page).1 joinClause =
      (if "terminated" ∈ keys then 1 else 0) ∧
    occurrences (buildVideosQuery toLower exquery tags keys limit page).1 "INNER JOIN" =
      (if "terminated" ∈ keys then 1 else 0) := by
  have hJ : 'J' ∉ (afterJoin toLower exquery tags keys limit page).data :=
    not_mem_afterJoin 'J' toLower exquery tags keys limit page
      (by decide) (by decide) (by decide) (by decide)
      (by unfold limitText; split_ifs <;> decide)
  have hcount : (buildVideosQuery toLower exquery tags keys limit page).1.data.count 'J' =
      (if "terminated" ∈ keys then 1 else 0) := by
    rw [buildVideosQuery_fst]
    simp only [String.data_append, List.count_append, List.count_eq_zero.mpr hJ, joinText]
    split <;> decide
  have hp1 : joinClause.data = " INNER ".data ++
      'J' :: "OIN terminated_channels b ON a.uploader_url = b.uploader_url".data := by
    decide
  have hp2 : "INNER JOIN".data = "INNER ".data ++ 'J' :: "OIN".data := by decide
  have hle1 := occurrencesChars_le_count_all " INNER ".data
    "OIN terminated_channels b ON a.uploader_url = b.uploader_url".data 'J'
    (buildVideosQuery toLower exquery tags keys limit page).1.data
  have hle2 := occurrencesChars_le_count_all "INNER ".data "OIN".data 'J'
    (buildVideosQuery toLower exquery tags keys limit page).1.data
  rw [← hp1, hcount] at hle1
  rw [← hp2, hcount] at hle2
  by_cases hmem : "terminated" ∈ keys
  · simp only [hmem, if_true] at hle1 hle2 ⊢
    have hge1 : 1 ≤ occurrences
        (buildVideosQuery toLower exquery tags keys limit page).1 joinClause := by
      rw [occurrences, buildVideosQuery_fst]
      simp only [String.data_append, joinText, hmem, if_true]
      exact occurrencesChars_pos _ _ _
    have hge2 : 1 ≤ occurrences
        (buildVideosQuery toLower exquery tags keys limit page).1 "INNER JOIN" := by
      rw [occurrences, buildVideosQuery_fst]
      simp only [String.data_append, joinText, hmem, if_true]
      have hsplit : joinClause.data = " ".data ++ ("INNER JOIN".data ++
          " terminated_channels b ON a.uploader_url = b.uploader_url".data) := by decide
      rw [hsplit]
      have hre : "SELECT a.* FROM videos a".data ++ (" ".data ++ ("INNER JOIN".data ++
            " terminated_channels b ON a.uploader_url = b.uploader_url".data) ++
            (afterJoin toLower exquery tags keys limit page).data) =
          ("SELECT a.* FROM videos a".data ++ " ".data) ++ ("INNER JOIN".data ++
            (" terminated_channels b ON a.uploader_url = b.uploader_url".data ++
              (afterJoin toLower exquery tags keys limit page).data)) := by
        simp only [List.append_assoc]
      rw [hre]
      exact occurrencesChars_pos _ _ _
    unfold occurrences at hge1 hge2 ⊢
    exact ⟨le_antisymm hle1 hge1, le_antisymm hle2 hge2⟩
  · simp only [hmem, if_false] at hle1 hle2 ⊢
    unfold occurrences
    exact ⟨Nat.le_zero.mp hle1, Nat.le_zero.mp hle2⟩

/-- C5. For `limit >= 0` and `page >= 0` the call with `(limit, page)` returns the text of
the call with `(-1, -1)` followed by ` LIMIT ? OFFSET ?`, and the bound values of that call
followed by `limit` and the Go product `page*limit` (which is the exact product whenever
that fits in 64 bits); the text of the `(-1, -1)` call ends with
` ORDER BY upload_date DESC` and contains neither `LIMIT` nor `OFFSET`. -/
theorem buildVideosQuery_limit_offset (toLower : String → String) (exquery : String)
    (tags : String → String) (keys : List String) (limit page : Int)
    (hl : 0 ≤ limit) (hp : 0 ≤ page) :
    buildVideosQuery toLower exquery tags keys limit page =
      ((buildVideosQuery toLower exquery tags keys (-1) (-1)).1 ++ " LIMIT ? OFFSET ?",
        (buildVideosQuery toLower exquery tags keys (-1) (-1)).2 ++
          [Value.int limit, Value.int (wrapInt64 (page * limit))]) ∧
    (page * limit < 2 ^ 63 → wrapInt64 (page * limit) = page * limit) ∧
    hasSuffix (buildVideosQuery toLower exquery tags keys (-1) (-1)).1
      " ORDER BY upload_date DESC" = true ∧
    containsStr (buildVideosQuery toLower exquery tags keys (-1) (-1)).1 "LIMIT" = false ∧
    containsStr (buildVideosQuery toLower exquery tags keys (-1) (-1)).1 "OFFSET" = false := by
  have hneg : ¬ (0 : Int) ≤ -1 := by decide
  have hlt : limitText (-1) (-1) = "" := by simp [limitText]
  refine ⟨?_, ?_, ?_, ?_, ?_⟩
  · rw [buildVideosQuery_eq, buildVideosQuery_eq]
    simp [limitText, limitValues, hl, hp, String.append_assoc]
  · intro hlt2
    have h0 : 0 ≤ page * limit := Int.mul_nonneg hp hl
    unfold wrapInt64
    rw [Int.emod_eq_of_lt (by omega) (by omega)]
    omega
  · rw [buildVideosQuery_eq, hlt, String.append_empty]
    exact hasSuffix_append _ _
  · rw [Bool.eq_false_iff]
    intro hc
    rw [containsStr, containsChars_iff, buildVideosQuery_fst, String.data_append] at hc
    have hM : 'M' ∉ (joinText keys ++ afterJoin toLower exquery tags keys (-1) (-1)).data := by
      have h1 := not_mem_afterJoin 'M' toLower exquery tags keys (-1) (-1)
        (by decide) (by decide) (by decide) (by decide) (by rw [hlt]; decide)
      have h2 : 'M' ∉ (joinText keys).data := by
        unfold joinText
        split <;> decide
      simp only [String.data_append, List.mem_append, not_or]
      exact ⟨h2, h1⟩
    have hpat : "LIMIT".data = "LI".data ++ 'M' :: "IT".data := by decide
    rw [hpat] at hc
    have hin := infix_left_of_not_mem _ _ _ _ 'M' hM hc
    rw [← containsChars_iff] at hin
    exact absurd hin (by decide)
  · rw [Bool.eq_false_iff]
    intro hc
    rw [containsStr, containsChars_iff, buildVideosQuery_fst, String.data_append] at hc
    have hF : 'F' ∉ (joinText keys ++ afterJoin toLower exquery tags keys (-1) (-1)).data := by
      have h1 := not_mem_afterJoin 'F' toLower exquery tags keys (-1) (-1)
        (by decide) (by decide) (by decide) (by decide) (by rw [hlt]; decide)
      have h2 : 'F' ∉ (joinText keys).data := by
        unfold joinText
        split <;> decide
      simp only [String.data_append, List.mem_append, not_or]
      exact ⟨h2, h1⟩
    have hpat : "OFFSET".data = "O".data ++ 'F' :: "FSET".data := by decide
    rw [hpat] at hc
    have hin := infix_left_of_not_mem _ _ _ _ 'F' hF hc
    rw [← containsChars_iff] at hin
    exact absurd hin (by decide)

/-- C5, at the free text `cats`, the key `uploader`, limit 50 and page 2. -/
theorem buildVideosQuery_limit_offset_witness :
    (0 : Int) ≤ 50 ∧ (0 : Int) ≤ 2 ∧
    buildVideosQuery asciiToLower "cats" (fun _ => "x") ["uploader"] 50 2 =
      ((buildVideosQuery asciiToLower "cats" (fun _ => "x") ["uploader"] (-1) (-1)).1 ++
          " LIMIT ? OFFSET ?",
        (buildVideosQuery asciiToLower "cats" (fun _ => "x") ["uploader"] (-1) (-1)).2 ++
          [Value.int 50, Value.int (wrapInt64 (2 * 50))]) :=
  ⟨by decide, by decide,
    (buildVideosQuery_limit_offset asciiToLower "cats" (fun _ => "x") ["uploader"] 50 2
      (by decide) (by decide)).1⟩

/-- C8. The empty parsed query with limit 20 and page 0 compiles to exactly
`SELECT a.* FROM videos a ORDER BY upload_date DESC LIMIT ? OFFSET ?` with the bound values
`[20, 0]`; and for every limit and page the empty parsed query compiles to the base
relation, the ordering and the limit text, with no `WHERE` and no opening parenthesis of a
predicate group, and its bound values are those of the limit only. -/
theorem buildVideosQuery_empty (toLower : String → String) (tags : String → String) :
    buildVideosQuery toLower "" tags [] 20 0 =
      ("SELECT a.* FROM videos a ORDER BY upload_date DESC LIMIT ? OFFSET ?",
        [Value.int 20, Value.int 0]) ∧
    ∀ limit page : Int,
      buildVideosQuery toLower "" tags [] limit page =
        ("SELECT a.* FROM videos a ORDER BY upload_date DESC" ++ limitText limit page,
          limitValues limit page) ∧
      containsStr (buildVideosQuery toLower "" tags [] limit page).1 "WHERE" = false ∧
      containsStr (buildVideosQuery toLower "" tags [] limit page).1 "(" = false ∧
      containsStr (buildVideosQuery toLower "" tags [] limit page).1 "JOIN" = false := by
  have hgen : ∀ limit page : Int, buildVideosQuery toLower "" tags [] limit page =
      ("SELECT a.* FROM videos a ORDER BY upload_date DESC" ++ limitText limit page,
        limitValues limit page) := by
    intro limit page
    rw [buildVideosQuery_eq]
    simp [joinText, freeTextPredicate, freeTextValues, loopGroups, groupValues]
  refine ⟨?_, ?_⟩
  · rw [hgen]
    decide
  · intro limit page
    refine ⟨hgen limit page, ?_, ?_, ?_⟩ <;>
    · rw [hgen]
      dsimp only
      unfold limitText
      split_ifs <;> decide

/-- C10, the claim as stated fails: for `total = 9007199254740993` (`2^53 + 1`) and
`limit = 1` the handlers compute 9007199254740992, because `float64(total)` rounds to
`2^53`, whereas `floor(total/limit + 9/10)` over exact rationals is 9007199254740993. -/
theorem pageCount_ne_exact :
    pageCount 9007199254740993 1 = 9007199254740992 ∧
    pageCountExact 9007199254740993 1 = 9007199254740993 ∧
    pageCount 9007199254740993 1 ≠ pageCountExact 9007199254740993 1 := by
  have h1 := pageCount_two_pow_53_succ
  have h2 : pageCountExact 9007199254740993 1 = 9007199254740993 := by
    rw [pageCountExact_eq_div _ _ (by decide)]
    decide
  refine ⟨h1, h2, ?_⟩
  rw [h1, h2]
  decide

/-- C10, amended. For `0 <= total < 2^48` and `1 <= limit < 2^48` the page count that the
handlers compute in `float64` arithmetic from `total` and `limit` equals
`floor(total/limit + 9/10)` taken over exact rationals, in integers
`(10*total + 9*limit) / (10*limit)`; for `total = 301` and `limit = 100` it is 3 while
true ceiling division gives 4, so the two formulas are not equal for every `total >= 0`
and `limit >= 1`. -/
theorem pageCount_range (total limit : Int) (h0 : 0 ≤ total) (ht : total < 2 ^ 48)
    (hl1 : 1 ≤ limit) (hl : limit < 2 ^ 48) :
    pageCount total limit = pageCountExact total limit ∧
    pageCountExact total limit = ⌊(total : ℚ) / (limit : ℚ) + 9 / 10⌋ ∧
    pageCount total limit = (10 * total + 9 * limit) / (10 * limit) ∧
    pageCount 301 100 = 3 ∧ ceilDiv 301 100 = 4 ∧
    ¬ (∀ t l : Int, 0 ≤ t → 1 ≤ l → pageCount t l = ceilDiv t l) := by
  have h301 : pageCount 301 100 = 3 := by
    rw [pageCount_eq_exact 301 100 (by decide) (by decide) (by decide) (by decide),
      pageCountExact_eq_div _ _ (by decide)]
    decide
  have hc : ceilDiv 301 100 = 4 := by decide
  refine ⟨pageCount_eq_exact total limit h0 ht hl1 hl, rfl, ?_, h301, hc, ?_⟩
  · rw [pageCount_eq_exact total limit h0 ht hl1 hl, pageCountExact_eq_div _ _ hl1]
  · intro hall
    have := hall 301 100 (by decide) (by decide)
    rw [h301, hc] at this
    exact absurd this (by decide)

/-- C10, amended, at `total = 301` and `limit = 100`. -/
theorem pageCount_range_witness :
    (0 : Int) ≤ 301 ∧ (301 : Int) < 2 ^ 48 ∧ (1 : Int) ≤ 100 ∧ (100 : Int) < 2 ^ 48 ∧
    pageCount 301 100 = pageCountExact 301 100 ∧
    pageCount 301 100 = (10 * 301 + 9 * 100) / (10 * 100) :=
  ⟨by decide, by decide, by decide, by decide,
    (pageCount_range 301 100 (by decide) (by decide) (by decide) (by decide)).1,
    (pageCount_range 301 100 (by decide) (by decide) (by decide) (by decide)).2.2.1⟩

/-- C1, the code at a failing input: with an empty free text and the keys
`foo, uploader` the first key is unrecognized and emits nothing, and the group of
`uploader`, the first predicate emitted, is introduced by ` AND`: the text has no `WHERE`
at all.  With the two keys swapped the group is introduced by ` WHERE`. -/
theorem buildVideosQuery_unrecognized_first_key :
    buildVideosQuery asciiToLower ""
        (fun k => if k = "uploader" then "bar" else if k = "foo" then "x" else "")
        ["foo", "uploader"] (-1) (-1) =
      ("SELECT a.* FROM videos a AND (uploader LIKE ?) ORDER BY upload_date DESC",
        [Value.str "%bar%"]) ∧
    containsStr (buildVideosQuery asciiToLower ""
        (fun k => if k = "uploader" then "bar" else if k = "foo" then "x" else "")
        ["foo", "uploader"] (-1) (-1)).1 "WHERE" = false ∧
    buildVideosQuery asciiToLower ""
        (fun k => if k = "uploader" then "bar" else if k = "foo" then "x" else "")
        ["uploader", "foo"] (-1) (-1) =
      ("SELECT a.* FROM videos a WHERE (uploader LIKE ?) ORDER BY upload_date DESC",
        [Value.str "%bar%"]) := by
  decide

/-- C3, the code at a failing input: the key `Terminated` equals `terminated` only up to
case; the key loop lower-cases it and emits the `terminated` group, the join loop compares
it exactly and adds no join clause.  The key `terminated` gets both. -/
theorem buildVideosQuery_terminated_case :
    buildVideosQuery asciiToLower "" (fun k => if k = "Terminated" then "1" else "")
        ["Terminated"] (-1) (-1) =
      ("SELECT a.* FROM videos a WHERE (terminated LIKE ?) ORDER BY upload_date DESC",
        [Value.str "%1%"]) ∧
    containsStr (buildVideosQuery asciiToLower ""
        (fun k => if k = "Terminated" then "1" else "") ["Terminated"] (-1) (-1)).1
      joinClause = false ∧
    containsStr (buildVideosQuery asciiToLower ""
        (fun k => if k = "Terminated" then "1" else "") ["Terminated"] (-1) (-1)).1
      "JOIN" = false ∧
    buildVideosQuery asciiToLower "" (fun k => if k = "terminated" then "1" else "")
        ["terminated"] (-1) (-1) =
      ("SELECT a.* FROM videos a INNER JOIN terminated_channels b ON " ++
          "a.uploader_url = b.uploader_url WHERE (terminated LIKE ?) " ++
          "ORDER BY upload_date DESC",
        [Value.str "%1%"]) := by
  decide

/-- C9, the code at two failing inputs: the filter of `parseNumberFromStat` keeps the
characters strictly between `0` and `9`, so the digits `0` and `9` are dropped:
`1,009 subscribers` gives 1, not 1009, and `90 views` gives 0 with a syntax error, not 90;
a stat without the digits `0` and `9` is parsed as intended.  In general the filtered
string holds the characters strictly between `0` and `9`, in their order. -/
theorem parseNumberFromStat_drops_0_and_9 :
    parseNumberFromStat "1,009 subscribers" = (1, none) ∧
    parseNumberFromStat "90 views" = (0, some NumError.errSyntax) ∧
    filterStr "1,009 subscribers" (fun s => !(s ≤ '0' || s ≥ '9')) = "1" ∧
    filterStr "90 views" (fun s => !(s ≤ '0' || s ≥ '9')) = "" ∧
    parseNumberFromStat "1,234 subscribers" = (1234, none) ∧
    (∀ stat : String,
      (filterStr stat (fun s => !(s ≤ '0' || s ≥ '9'))).data =
        stat.data.filter (fun s => decide ('0' < s ∧ s < '9'))) := by
  refine ⟨by decide, by decide, by decide, by decide, by decide, ?_⟩
  intro stat
  rw [filterStr_data]
  congr 1
  funext s
  have h1 : (!decide (s ≤ '0')) = decide ('0' < s) := by
    rw [Bool.eq_iff_iff]; simp
  have h2 : (!decide (s ≥ '9')) = decide (s < '9') := by
    rw [Bool.eq_iff_iff]; simp
  simp only [Bool.not_or, Bool.decide_and, h1, h2]

end YoutubeArchive
